import Mathlib

/-!
# nda : array views and the leading-dimension partitioner

A shallow embedding of `c++/nda/array_view.hpp` and of the helper
`chunk_range` of `test/c++/nda_mpi.cpp`, with the properties the
specification states about them.

Conventions.
* `std::ptrdiff_t` and `long` are 64-bit signed integers: a value is an `Int`
  and every arithmetic operation of `chunk_range` is reduced into the 64-bit
  range by `wrap64` (two's-complement wrap-around, what the compiled code does
  on overflow). C++ `/` on integers truncates towards zero and is `Int.tdiv`.
* Headers that are included by the sources but are not part of the embedded
  files are modelled from the specification and are marked as such.
-/

namespace nda

/-! ## The partitioner (`chunk_range`, nda_mpi.cpp l.27-35) -/

/-- Range of a signed 64-bit integer (`std::ptrdiff_t`, `long` on LP64). -/
def in_int64 (x : Int) : Prop := -(2 ^ 63) ≤ x ∧ x < 2 ^ 63

instance (x : Int) : Decidable (in_int64 x) := by
  unfold in_int64; infer_instance

/-- The 64-bit signed value of an integer result: reduction modulo `2^64` into
`[-2^63, 2^63)`. -/
def wrap64 (x : Int) : Int := (x + 2 ^ 63) % 2 ^ 64 - 2 ^ 63

/-- The helper `chunk_range(start, end, n_chunks, rank)` of the MPI test, every
operation on 64-bit values. `first` and `second` of the returned `std::pair`
are the two components. -/
def chunk_range (start end_ n_chunks rank : Int) : Int × Int :=
  let total_size := wrap64 (end_ - start)
  let chunk_size := wrap64 (total_size.tdiv n_chunks)
  let n_large_nodes := wrap64 (total_size - wrap64 (n_chunks * chunk_size))
  if rank < n_large_nodes then
    (wrap64 (start + wrap64 (rank * wrap64 (chunk_size + 1))),
     wrap64 (start + wrap64 (wrap64 (rank + 1) * wrap64 (chunk_size + 1))))
  else
    (wrap64 (wrap64 (start + n_large_nodes) + wrap64 (rank * chunk_size)),
     wrap64 (wrap64 (start + n_large_nodes) + wrap64 (wrap64 (rank + 1) * chunk_size)))

/-- The partition formulas in the words of the specification (§4.4), over the
integers: `total`, `base`, `remainder`, and the two rank cases. -/
def partition_spec (global_start global_end participant_count r : Int) : Int × Int :=
  let total := global_end - global_start
  let base := total / participant_count
  let remainder := total - participant_count * base
  if r < remainder then
    let local_start := global_start + r * (base + 1)
    (local_start, local_start + (base + 1))
  else
    let local_start := global_start + remainder + r * base
    (local_start, local_start + base)

/-! ## Scatter and gather over the leading dimension

An array is seen as the list of its rows (the leading dimension); the other
dimensions are an opaque per-row block `α`. -/

/-- The slice `A(range(first, second), range())`: rows `first .. second-1`. -/
def rows_range {α : Type} (A : List α) (first second : Int) : List α :=
  (A.drop first.toNat).take (second - first).toNat

/-- Modelled from the spec: `mpi::scatter` (`nda/mpi.hpp` is not among the
embedded sources). Spec §4.5: the leading dimension is partitioned with the
Partitioner (§4.4) and each participant receives exactly the slice of its own
partition. For an extent and a participant count that fit 64 bits this is
the slice the test checks, `A(range(se.first, se.second), range())` with
`se = chunk_range(0, A.extent(0), size, rank)`. -/
def scatter {α : Type} (A : List α) (size rank : Nat) : List α :=
  let se := partition_spec 0 A.length size rank
  rows_range A se.1 se.2

/-- Modelled from the spec: `mpi::gather` / `mpi::all_gather` (`nda/mpi.hpp` is
not among the embedded sources). Spec §4.5: the received slices are
concatenated, in rank order, along the leading dimension. `pieces` lists the
local arrays by ascending rank. -/
def gather {α : Type} (pieces : List (List α)) : List α :=
  pieces.flatten

/-! ## Array views (`array_view.hpp`)

`array_view<ValueType, Rank, MemPolicy>` has two data members, `_idx_m` and
`_storage`. Their classes and the element access of
`_regular_view_common.hpp` are not among the embedded sources and are modelled
from the specification (§3, §4.1-4.3). -/

/-- The `enum class mem_policy_e { Borrowed, Shared }`. -/
inductive mem_policy_e where
  | Borrowed
  | Shared
deriving DecidableEq, Repr

/-- Modelled from the spec: `idx_map<Rank>` (`indexmap/idx_map.hpp` is not among
the embedded sources). Spec §3 Extent/Layout: a shape of `rank` extents, one
signed stride per dimension, and the linear offset of the index-zero element. -/
structure idx_map where
  shape : List Nat
  strides : List Int
  origin_offset : Int
deriving DecidableEq, Repr

/-- Modelled from the spec: the linear offset of a multi-index,
`origin_offset + sum(i_k * strides[k])` (§3). -/
def idx_map.offset (m : idx_map) (i : List Nat) : Int :=
  m.origin_offset + (List.zipWith (fun (ik : Nat) (sk : Int) => (ik : Int) * sk) i m.strides).sum

/-- A valid multi-index for a shape: one component per dimension with
`0 <= i_k < shape[k]` (§3). -/
def valid_index (i shape : List Nat) : Prop :=
  List.Forall₂ (fun ik sk => ik < sk) i shape

instance (i shape : List Nat) : Decidable (valid_index i shape) := by
  unfold valid_index; infer_instance

/-- All valid multi-indices of a shape, first dimension slowest. -/
def indices : List Nat → List (List Nat)
  | [] => [[]]
  | n :: rest => (List.range n).flatMap (fun i => (indices rest).map (fun t => i :: t))

/-- Modelled from the spec: `mem::handle<value_t, 'B' | 'S'>`
(`storage/handle.hpp` is not among the embedded sources). Spec §3 Storage
Handle: a policy, an element count and a data pointer; the data pointer
identifies the buffer. -/
structure handle where
  policy : mem_policy_e
  element_count : Nat
  data_pointer : Nat
deriving DecidableEq, Repr

/-- The buffers of one process: `cells p a` is the element at position `a` of
the buffer that the data pointer `p` identifies, `refcount p` the number of
Shared handles on that buffer. -/
structure Memory (T : Type) where
  cells : Nat → Int → T
  refcount : Nat → Nat

/-- Modelled from the spec: copy of a handle (§3, §4.2). A Shared handle
increments the reference count and never duplicates the buffer; a Borrowed
handle duplicates the reference only. -/
def handle.copy {T : Type} (h : handle) (m : Memory T) : handle × Memory T :=
  match h.policy with
  | .Borrowed => (h, m)
  | .Shared =>
    (h, { m with refcount := Function.update m.refcount h.data_pointer
                               (m.refcount h.data_pointer + 1) })

/-- Modelled from the spec: release of a handle (§4.2): nothing for Borrowed,
one reference less for Shared (the buffer is freed when none is left). -/
def handle.release {T : Type} (h : handle) (m : Memory T) : Memory T :=
  match h.policy with
  | .Borrowed => m
  | .Shared =>
    { m with refcount := Function.update m.refcount h.data_pointer
                           (m.refcount h.data_pointer - 1) }

/-- Modelled from the spec: copy assignment `dst = src` of handles: `dst`
becomes a copy of `src` and gives up the buffer it referred to. -/
def handle.assign {T : Type} (dst src : handle) (m : Memory T) : handle × Memory T :=
  let c := src.copy m
  (c.1, dst.release c.2)

/-- The data members of `array_view` (l.54-55). -/
structure array_view where
  _idx_m : idx_map
  _storage : handle
deriving DecidableEq, Repr

/-- Modelled from the spec: the accessor `indexmap()` of
`_regular_view_common.hpp`. -/
def array_view.indexmap (v : array_view) : idx_map := v._idx_m

/-- Modelled from the spec: the accessor `storage()` of
`_regular_view_common.hpp`. -/
def array_view.storage (v : array_view) : handle := v._storage

/-- Modelled from the spec: reading the element at a multi-index (`v(i...)` of
`_regular_view_common.hpp`): the cell of the view's buffer at the linear
offset of the index. -/
def array_view.read {T : Type} (v : array_view) (m : Memory T) (i : List Nat) : T :=
  m.cells v._storage.data_pointer (v._idx_m.offset i)

/-- Modelled from the spec: writing the element at a multi-index
(`v(i...) = x`): only that cell of the view's buffer changes. -/
def array_view.write {T : Type} (v : array_view) (m : Memory T) (i : List Nat) (x : T) :
    Memory T :=
  { m with cells := fun p a =>
      if p = v._storage.data_pointer ∧ a = v._idx_m.offset i then x else m.cells p a }

/-- The copy constructor `array_view(array_view const &) = default` (l.67):
memberwise copy of `_idx_m` and `_storage`. -/
def array_view.copy_ctor {T : Type} (v : array_view) (m : Memory T) : array_view × Memory T :=
  let st := v._storage.copy m
  ({ _idx_m := v._idx_m, _storage := st.1 }, st.2)

/-- The constructor `array_view(idx_map<Rank> idx, storage_t st)` (l.82): both
arguments are moved into the members. -/
def array_view.from_idx_storage (idx : idx_map) (st : handle) : array_view :=
  { _idx_m := idx, _storage := st }

/-- The body shared by `array_view(array_view<value_t, Rank> const &v)` (l.75) and
`template <typename T> explicit array_view(T const &a)` (l.92):
`array_view(a.indexmap(), a.storage())`, the handle being copied into the
by-value parameter. -/
def array_view.from_view {T : Type} (a : array_view) (m : Memory T) : array_view × Memory T :=
  let st := a.storage.copy m
  (array_view.from_idx_storage a.indexmap st.1, st.2)

/-- The view objects of a program, by identity, and the memory they refer to. -/
structure State (T : Type) where
  views : Nat → array_view
  mem : Memory T

/-- The member function `rebind(X)` (l.127-130 and l.133-136, same body), called on the
view object `self` (`*this`) with the view object `X`:
`_idx_m = X._idx_m; _storage = X._storage;`. -/
def rebind {T : Type} (s : State T) (self X : Nat) : State T :=
  let s1 : State T :=
    { views := Function.update s.views self
        { _idx_m := (s.views X)._idx_m, _storage := (s.views self)._storage },
      mem := s.mem }
  let st := handle.assign (s1.views self)._storage (s1.views X)._storage s1.mem
  { views := Function.update s1.views self
      { _idx_m := (s1.views self)._idx_m, _storage := st.1 },
    mem := st.2 }

/-! ### Assignment -/

/-- A right-hand side of `operator=`: an object modelling NDArray (it has a
shape and is evaluated at a multi-index, possibly by reading memory) or a
scalar (no shape). -/
structure RHS (T : Type) where
  shape : Option (List Nat)
  eval : Memory T → List Nat → T

/-- A scalar right-hand side. -/
def RHS.scalar {T : Type} (x : T) : RHS T :=
  { shape := none, eval := fun _ _ => x }

/-- A view as right-hand side: its elements are read when they are used. -/
def RHS.of_view {T : Type} (w : array_view) : RHS T :=
  { shape := some w._idx_m.shape, eval := fun m i => w.read m i }

/-- The multi-index lies within the right-hand side (always, for a scalar). -/
def RHS.in_bounds {T : Type} (rhs : RHS T) (i : List Nat) : Prop :=
  match rhs.shape with
  | none => True
  | some sh => valid_index i sh

instance {T : Type} (rhs : RHS T) (i : List Nat) : Decidable (rhs.in_bounds i) := by
  unfold RHS.in_bounds; split <;> infer_instance

/-- The right-hand side is at least as large as `shape` in every dimension. -/
def RHS.covers {T : Type} (rhs : RHS T) (shape : List Nat) : Prop :=
  match rhs.shape with
  | none => True
  | some sh => List.Forall₂ (fun a b => a ≤ b) shape sh

instance {T : Type} (rhs : RHS T) (shape : List Nat) : Decidable (rhs.covers shape) := by
  unfold RHS.covers; split <;> infer_instance

/-- Modelled from the spec: `nda::details::assignment(lhs, rhs)` (`assignment.hpp`
is not among the embedded sources). Spec §4.3 and the pseudo code of
`operator=` (l.105-106): for all `i,j,k,l,...`, `lhs[i,j,k,l] = rhs(i,j,k,l)`,
one valid multi-index of `lhs` after the other. Reading `rhs` out of its
bounds is undefined behaviour (`none`). -/
def assignment {T : Type} (lhs : array_view) (rhs : RHS T) (m : Memory T) : Option (Memory T) :=
  (indices lhs._idx_m.shape).foldlM
    (fun m i => if rhs.in_bounds i then some (lhs.write m i (rhs.eval m i)) else none) m

/-- The member `template <typename RHS> array_view &operator=(RHS const &rhs)`
(l.112-115): `assignment(*this, rhs); return *this;`. -/
def array_view.assign {T : Type} (self : array_view) (rhs : RHS T) (m : Memory T) :
    Option (array_view × Memory T) :=
  (assignment self rhs m).map (fun m1 => (self, m1))

/-- The member `array_view &operator=(array_view const &rhs)` (l.119-122), the
explicitly coded special case: `assignment(*this, rhs); return *this;`. -/
def array_view.assign_view {T : Type} (self rhs : array_view) (m : Memory T) :
    Option (array_view × Memory T) :=
  (assignment self (RHS.of_view rhs) m).map (fun m1 => (self, m1))

/-! ### The view classes, their constructors and the overloads of `rebind`

Which calls the class accepts is decided at compile time from the types
alone; the values are built by the functions above. -/

/-- An element type `ValueType`: a cv-unqualified type, identified by a number,
and whether it is const-qualified. -/
structure value_type where
  unqualified : Nat
  const_qualified : Bool
deriving DecidableEq, Repr

/-- The type `std::remove_const_t<T>`. -/
def remove_const (t : value_type) : value_type :=
  { unqualified := t.unqualified, const_qualified := false }

/-- The type `T const`. -/
def add_const (t : value_type) : value_type :=
  { unqualified := t.unqualified, const_qualified := true }

/-- The class `array_view<ValueType, Rank>`, the memory policy being the default
one (`Borrowed`), as in every parameter type of the class's members. -/
structure view_class where
  ValueType : value_type
  Rank : Nat
deriving DecidableEq, Repr

/-- The member type `value_t = std::remove_const_t<ValueType>` (l.32). -/
def view_class.value_t (V : view_class) : value_type := remove_const V.ValueType

/-- The constant `is_const = std::is_const_v<ValueType>` (l.45). -/
def view_class.is_const (V : view_class) : Bool := V.ValueType.const_qualified

/-- The member type `storage_t = mem::handle<value_t, 'B'>` (l.36), given by the
element type and the policy letter of the handle. -/
def view_class.storage_t (V : view_class) : value_type × mem_policy_e :=
  (V.value_t, mem_policy_e.Borrowed)

/-- The member type `idx_map_t = idx_map<Rank>` (l.37), given by its rank. -/
def view_class.idx_map_t (V : view_class) : Nat := V.Rank

/-- The member type `view_t = array_view<value_t, Rank>` (l.40). -/
def view_class.view_t (V : view_class) : view_class :=
  { ValueType := V.value_t, Rank := V.Rank }

/-- The member type `const_view_t = array_view<value_t const, Rank>` (l.41). -/
def view_class.const_view_t (V : view_class) : view_class :=
  { ValueType := add_const V.value_t, Rank := V.Rank }

/-- The constructors of `array_view` that take arguments (l.64-92). -/
inductive ctor where
  /-- The move constructor `array_view(array_view &&) = default` (l.64) -/
  | move
  /-- The copy constructor `array_view(array_view const &) = default` (l.67) -/
  | copy
  /-- The constructor `array_view(array_view<value_t, Rank> const &v) REQUIRES(is_const)` (l.75) -/
  | const_from_view
  /-- The constructor `array_view(idx_map<Rank> idx, storage_t st)` (l.82) -/
  | idx_storage
  /-- The constructor `template <typename T> explicit array_view(T const &a)` (l.92) -/
  | generic
deriving DecidableEq, Repr

/-- All the constructors with arguments. -/
def ctor.all : List ctor :=
  [ctor.move, ctor.copy, ctor.const_from_view, ctor.idx_storage, ctor.generic]

/-- Only the generic constructor is declared `explicit`. -/
def ctor.is_explicit (c : ctor) : Bool :=
  match c with
  | .generic => true
  | _ => false

/-- Does constructor `c` of class `V` accept one argument that is a view
(an lvalue) of class `S`?
* move: an rvalue of `V` only, never an lvalue;
* copy: the parameter is `array_view const &`, a view of `V` itself;
* const_from_view: the parameter is `array_view<value_t, Rank> const &` and the
  constructor exists only when `is_const`;
* idx_storage: two parameters, not a view;
* generic: any `T`; the body `array_view(a.indexmap(), a.storage())` needs the
  index map and the storage of `S` to be those of `V`. -/
def ctor.accepts (c : ctor) (V S : view_class) : Bool :=
  match c with
  | .move => false
  | .copy => decide (S = V)
  | .const_from_view => V.is_const && decide (S = V.view_t)
  | .idx_storage => false
  | .generic => decide (S.idx_map_t = V.idx_map_t) && decide (S.storage_t = V.storage_t)

/-- Direct initialisation `V w(a)` from a view `a` of class `S` compiles. -/
def constructible (V S : view_class) : Bool :=
  ctor.all.any (fun c => c.accepts V S)

/-- A view of class `S` converts implicitly to class `V` (as for binding it to a
parameter `V const &`): a constructor that is not `explicit` accepts it. -/
def implicitly_convertible (S V : view_class) : Bool :=
  ctor.all.any (fun c => !c.is_explicit && c.accepts V S)

/-- The value built by constructor `c` of class `V` from the view `a` of class
`S`, if the call compiles. -/
def construct {T : Type} (c : ctor) (V S : view_class) (a : array_view) (m : Memory T) :
    Option (array_view × Memory T) :=
  if c.accepts V S then
    match c with
    | .copy => some (a.copy_ctor m)
    | .const_from_view => some (a.from_view m)
    | .generic => some (a.from_view m)
    | .move => none
    | .idx_storage => none
  else none

/-- The two overloads of `rebind` (l.127 and l.133). -/
inductive rebind_overload where
  /-- The overload `void rebind(array_view<value_t, Rank> const &X)` (l.127) -/
  | from_view
  /-- The overload `void rebind(array_view<value_t const, Rank> const &X) REQUIRES(!is_const)` (l.133) -/
  | from_const_view
deriving DecidableEq, Repr

/-- The class of the parameter `X` of an overload of `rebind` of class `V`. -/
def rebind_overload.param (o : rebind_overload) (V : view_class) : view_class :=
  match o with
  | .from_view => V.view_t
  | .from_const_view => V.const_view_t

/-- The `REQUIRES` condition of an overload of `rebind` of class `V`: none on
l.127, `!is_const` on l.133. -/
def rebind_overload.enabled (o : rebind_overload) (V : view_class) : Bool :=
  match o with
  | .from_view => true
  | .from_const_view => !V.is_const

/-- An overload is viable for `v.rebind(X)`, `v` of class `V` and `X` of class
`S`, when it is enabled and `X` binds to its parameter. -/
def rebind_overload.viable (o : rebind_overload) (V S : view_class) : Bool :=
  o.enabled V && implicitly_convertible S (o.param V)

/-- The call `v.rebind(X)` compiles: some overload is viable. -/
def rebind_accepted (V S : view_class) : Bool :=
  [rebind_overload.from_view, rebind_overload.from_const_view].any (fun o => o.viable V S)

/-- The call `v.rebind(X)` on view objects `v` of class `V` and `X` of class `S`:
rejected at compile time (`none`) or the effect of the body. -/
def rebind_call {T : Type} (V S : view_class) (s : State T) (v X : Nat) : Option (State T) :=
  if rebind_accepted V S then some (rebind s v X) else none

/-! ## All-reduce of composite elements (test `MPIReduceCustom`, nda_mpi.cpp l.118-137)

The elements are `nda::matrix<double>`; every value in the test is an integer
computed in integer arithmetic before it is stored, and is kept as an `Int`. -/

/-- A memory whose buffer at data pointer 0 holds 10, 11, 12, ... at positions
0, 1, 2, ... and whose buffer at data pointer 1 holds 20, 21, 22, ... -/
def example_memory : Memory Int :=
  { cells := fun p a => if p = 0 then 10 + a else if p = 1 then 20 + a else 0,
    refcount := fun _ => 0 }

/-- A rank-1 view of extent 3 on positions 2, 3, 4 of buffer 0. -/
def example_lhs : array_view :=
  { _idx_m := { shape := [3], strides := [1], origin_offset := 2 },
    _storage := { policy := .Borrowed, element_count := 5, data_pointer := 0 } }

/-- A rank-1 view of extent 3 on positions 4, 2, 0 of the same buffer 0. -/
def example_rhs_overlapping : array_view :=
  { _idx_m := { shape := [3], strides := [-2], origin_offset := 4 },
    _storage := { policy := .Borrowed, element_count := 5, data_pointer := 0 } }

/-- A rank-1 view of extent 3 on positions 0, 1, 2 of buffer 1. -/
def example_rhs_disjoint : array_view :=
  { _idx_m := { shape := [3], strides := [1], origin_offset := 0 },
    _storage := { policy := .Borrowed, element_count := 3, data_pointer := 1 } }

/-- A rank-1 view of extent 2 and stride 0: both multi-indices address position 0
of buffer 0. -/
def example_lhs_repeated : array_view :=
  { _idx_m := { shape := [2], strides := [0], origin_offset := 0 },
    _storage := { policy := .Borrowed, element_count := 5, data_pointer := 0 } }

/-! ### Arithmetic facts about the partition and `chunk_range` -/

theorem wrap64_of_in_int64 (x : Int) (h1 : -(2 ^ 63) ≤ x) (h2 : x < 2 ^ 63) : wrap64 x = x := by
  unfold wrap64
  rw [Int.emod_eq_of_lt (by omega) (by omega)]
  omega

theorem ediv_facts (t n : Int) (ht : 0 ≤ t) (hn : 1 ≤ n) :
    0 ≤ t / n ∧ 0 ≤ t - n * (t / n) ∧ t - n * (t / n) < n := by
  have hn0 : (0 : Int) ≤ n := by omega
  have h1 := Int.ediv_add_emod t n
  have h2 := Int.emod_nonneg t (show n ≠ 0 by omega)
  have h3 := Int.emod_lt_of_pos t (show 0 < n by omega)
  have h4 := Int.ediv_nonneg ht hn0
  refine ⟨h4, ?_, ?_⟩ <;> linarith

theorem partition_first (start end_ n : Int) (hse : start ≤ end_) (hn : 1 ≤ n) :
    (partition_spec start end_ n 0).1 = start := by
  obtain ⟨hc, hr0, hrn⟩ := ediv_facts (end_ - start) n (by omega) hn
  unfold partition_spec
  simp only
  split_ifs
  · simp
  · simp; nlinarith

theorem partition_last (start end_ n : Int) (hse : start ≤ end_) (hn : 1 ≤ n) :
    (partition_spec start end_ n (n - 1)).2 = end_ := by
  obtain ⟨hc, hr0, hrn⟩ := ediv_facts (end_ - start) n (by omega) hn
  unfold partition_spec
  simp only
  rw [if_neg (by omega)]
  simp only
  ring

theorem partition_adjacent (start end_ n r : Int) :
    (partition_spec start end_ n r).2 = (partition_spec start end_ n (r + 1)).1 := by
  unfold partition_spec
  simp only
  generalize (end_ - start) / n = c
  by_cases ha : r < end_ - start - n * c <;> by_cases hb : r + 1 < end_ - start - n * c
  · rw [if_pos ha, if_pos hb]; simp only; ring
  · rw [if_pos ha, if_neg hb]
    have : r + 1 = end_ - start - n * c := by omega
    simp only
    have e : start + r * (c + 1) + (c + 1) = start + (r + 1) * c + (r + 1) := by ring
    rw [e, this]; ring
  · omega
  · rw [if_neg ha, if_neg hb]; simp only; ring

theorem partition_ordered (start end_ n r : Int) (hse : start ≤ end_) (hn : 1 ≤ n) :
    (partition_spec start end_ n r).1 ≤ (partition_spec start end_ n r).2 := by
  obtain ⟨hc, hr0, hrn⟩ := ediv_facts (end_ - start) n (by omega) hn
  unfold partition_spec
  simp only
  split_ifs <;> simp only <;> omega

theorem partition_first_nonneg (L n r : Int) (hL : 0 ≤ L) (hn : 1 ≤ n) (h0 : 0 ≤ r) :
    0 ≤ (partition_spec 0 L n r).1 := by
  obtain ⟨hc, hr0, hrn⟩ := ediv_facts (L - 0) n (by omega) hn
  unfold partition_spec
  simp only
  split_ifs <;> simp only <;> nlinarith

theorem partition_length (start end_ n r : Int) :
    (partition_spec start end_ n r).2 - (partition_spec start end_ n r).1
      = if r < (end_ - start) - n * ((end_ - start) / n)
        then (end_ - start) / n + 1 else (end_ - start) / n := by
  unfold partition_spec
  simp only
  split_ifs <;> ring

/-- On 64-bit arguments with a representable span nothing wraps. -/
theorem chunk_range_of_bounds (start end_ n r : Int)
    (hs : in_int64 start) (he : in_int64 end_) (hnr : in_int64 n)
    (hse : start ≤ end_) (hspan : end_ - start < 2 ^ 63)
    (hn : 1 ≤ n) (h0 : 0 ≤ r) (hr : r < n) :
    chunk_range start end_ n r = partition_spec start end_ n r := by
  obtain ⟨hc, hr0, hrn⟩ := ediv_facts (end_ - start) n (by omega) hn
  unfold in_int64 at *
  unfold chunk_range partition_spec
  simp only
  rw [wrap64_of_in_int64 (end_ - start) (by omega) hspan,
    Int.tdiv_eq_ediv (show 0 ≤ end_ - start by omega) (show 0 ≤ n by omega)]
  generalize (end_ - start) / n = c at hc hr0 hrn
  have hnc : 0 ≤ n * c := mul_nonneg (by omega) hc
  have hcc : c ≤ n * c := by nlinarith
  rw [wrap64_of_in_int64 c (by omega) (by omega),
    wrap64_of_in_int64 (n * c) (by omega) (by omega),
    wrap64_of_in_int64 (end_ - start - n * c) (by omega) (by omega)]
  split_ifs with hlt
  · have h1 : 0 ≤ r * (c + 1) := mul_nonneg h0 (by omega)
    have h2 : (r + 1) * (c + 1) ≤ end_ - start := by nlinarith
    have h3 : r * (c + 1) ≤ (r + 1) * (c + 1) := by nlinarith
    rw [wrap64_of_in_int64 (c + 1) (by omega) (by omega),
      wrap64_of_in_int64 (r * (c + 1)) (by omega) (by omega),
      wrap64_of_in_int64 (r + 1) (by omega) (by omega),
      wrap64_of_in_int64 ((r + 1) * (c + 1)) (by omega) (by omega),
      wrap64_of_in_int64 (start + r * (c + 1)) (by omega) (by omega),
      wrap64_of_in_int64 (start + (r + 1) * (c + 1)) (by omega) (by omega)]
    congr 1; ring
  · have h1 : 0 ≤ r * c := mul_nonneg h0 hc
    have h2 : (r + 1) * c ≤ n * c := by nlinarith
    have h3 : r * c ≤ (r + 1) * c := by nlinarith
    rw [wrap64_of_in_int64 (start + (end_ - start - n * c)) (by omega) (by omega),
      wrap64_of_in_int64 (r * c) (by omega) (by omega),
      wrap64_of_in_int64 (r + 1) (by omega) (by omega),
      wrap64_of_in_int64 ((r + 1) * c) (by omega) (by omega),
      wrap64_of_in_int64 (start + (end_ - start - n * c) + r * c) (by omega) (by omega),
      wrap64_of_in_int64 (start + (end_ - start - n * c) + (r + 1) * c) (by omega) (by omega)]
    congr 1; ring

/-- C1 (as the code has it): for 64-bit `start <= end` whose span `end - start`
is representable and `1 <= n`, the ranges of ranks `0..n-1` tile `[start, end)`
in rank order: rank 0 begins at `start`, rank `n-1` stops at `end`, each rank
stops where the next one begins, and no range is reversed. -/
theorem chunk_range_tiles (start end_ n : Int)
    (hs : in_int64 start) (he : in_int64 end_) (hn64 : in_int64 n)
    (hse : start ≤ end_) (hspan : end_ - start < 2 ^ 63) (hn : 1 ≤ n) :
    (chunk_range start end_ n 0).1 = start ∧
    (chunk_range start end_ n (n - 1)).2 = end_ ∧
    (∀ r : Int, 0 ≤ r → r < n - 1 →
      (chunk_range start end_ n r).2 = (chunk_range start end_ n (r + 1)).1) ∧
    (∀ r : Int, 0 ≤ r → r < n →
      (chunk_range start end_ n r).1 ≤ (chunk_range start end_ n r).2) := by
  have key : ∀ r : Int, 0 ≤ r → r < n →
      chunk_range start end_ n r = partition_spec start end_ n r :=
    fun r h0 hr => chunk_range_of_bounds start end_ n r hs he hn64 hse hspan hn h0 hr
  refine ⟨?_, ?_, ?_, ?_⟩
  · rw [key 0 (le_refl 0) (by omega)]
    exact partition_first start end_ n hse hn
  · rw [key (n - 1) (by omega) (by omega)]
    exact partition_last start end_ n hse hn
  · intro r h0 hr
    rw [key r h0 (by omega), key (r + 1) (by omega) (by omega)]
    exact partition_adjacent start end_ n r
  · intro r h0 hr
    rw [key r h0 hr]
    exact partition_ordered start end_ n r hse hn

/-- Witness of `chunk_range_tiles`: seven rows over three participants. -/
theorem chunk_range_tiles_witness :
    in_int64 0 ∧ in_int64 7 ∧ in_int64 3 ∧ (0 : Int) ≤ 7 ∧ (7 : Int) - 0 < 2 ^ 63 ∧
    (1 : Int) ≤ 3 ∧
    (chunk_range 0 7 3 0).1 = 0 ∧
    (chunk_range 0 7 3 (3 - 1)).2 = 7 ∧
    (∀ r : Int, 0 ≤ r → r < 3 - 1 →
      (chunk_range 0 7 3 r).2 = (chunk_range 0 7 3 (r + 1)).1) ∧
    (∀ r : Int, 0 ≤ r → r < 3 →
      (chunk_range 0 7 3 r).1 ≤ (chunk_range 0 7 3 r).2) :=
  ⟨by decide, by decide, by decide, by decide, by decide, by decide,
    chunk_range_tiles 0 7 3 (by decide) (by decide) (by decide) (by decide) (by decide)
      (by decide)⟩

/-- C1 as stated fails when the span is not representable: for the 64-bit values
`start = -2^63 <= end = 2^63 - 1` and `n = 2`, `end - start` wraps to `-1` and
rank 0 gets `(2^63 - 1, 2^63 - 1)`, which does not begin at `start`. -/
theorem chunk_range_tiles_counterexample :
    in_int64 (-(2 ^ 63)) ∧ in_int64 (2 ^ 63 - 1) ∧ in_int64 2 ∧
    (-(2 ^ 63) : Int) ≤ 2 ^ 63 - 1 ∧ (1 : Int) ≤ 2 ∧
    chunk_range (-(2 ^ 63)) (2 ^ 63 - 1) 2 0 = (2 ^ 63 - 1, 2 ^ 63 - 1) ∧
    (chunk_range (-(2 ^ 63)) (2 ^ 63 - 1) 2 0).1 ≠ -(2 ^ 63) := by
  decide

/-- C8 (as the code has it): for 64-bit `start <= end` whose span `end - start` is
representable, `1 <= n` and `0 <= r < n`, `chunk_range` returns exactly the pair
given by the partition formulas of the specification (`total`, `base`,
`remainder`, and the two rank cases). -/
theorem chunk_range_refines_partition_spec (start end_ n r : Int)
    (hs : in_int64 start) (he : in_int64 end_) (hn64 : in_int64 n)
    (hse : start ≤ end_) (hspan : end_ - start < 2 ^ 63)
    (hn : 1 ≤ n) (h0 : 0 ≤ r) (hr : r < n) :
    chunk_range start end_ n r = partition_spec start end_ n r :=
  chunk_range_of_bounds start end_ n r hs he hn64 hse hspan hn h0 hr

/-- Witness of `chunk_range_refines_partition_spec`: rank 1 of 3 over `[0, 7)`. -/
theorem chunk_range_refines_partition_spec_witness :
    in_int64 0 ∧ in_int64 7 ∧ in_int64 3 ∧ (0 : Int) ≤ 7 ∧ (7 : Int) - 0 < 2 ^ 63 ∧
    (1 : Int) ≤ 3 ∧ (0 : Int) ≤ 1 ∧ (1 : Int) < 3 ∧
    chunk_range 0 7 3 1 = partition_spec 0 7 3 1 :=
  ⟨by decide, by decide, by decide, by decide, by decide, by decide, by decide, by decide,
    chunk_range_refines_partition_spec 0 7 3 1 (by decide) (by decide) (by decide)
      (by decide) (by decide) (by decide) (by decide) (by decide)⟩

/-- C8 as stated fails when the span is not representable: for the 64-bit values
`start = -2^63 <= end = 2^63 - 1`, `n = 2` and rank 0 the formulas give
`(-2^63, 0)` and `chunk_range` returns `(2^63 - 1, 2^63 - 1)`. -/
theorem chunk_range_refines_counterexample :
    in_int64 (-(2 ^ 63)) ∧ in_int64 (2 ^ 63 - 1) ∧ in_int64 2 ∧
    (-(2 ^ 63) : Int) ≤ 2 ^ 63 - 1 ∧ (1 : Int) ≤ 2 ∧ (0 : Int) ≤ 0 ∧ (0 : Int) < 2 ∧
    partition_spec (-(2 ^ 63)) (2 ^ 63 - 1) 2 0 = (-(2 ^ 63), 0) ∧
    chunk_range (-(2 ^ 63)) (2 ^ 63 - 1) 2 0 ≠ partition_spec (-(2 ^ 63)) (2 ^ 63 - 1) 2 0 := by
  decide

/-- C9 (as the code has it): for 64-bit `start <= end` whose span `end - start` is
representable and `1 <= n`, with `base = (end - start) / n` and
`remainder = (end - start) - n * base`: `0 <= remainder < n`; ranks below
`remainder` get `base + 1` elements, the other ranks get `base` elements (none
when `n` exceeds the total); any two ranks differ by at most one element. -/
theorem chunk_range_balanced (start end_ n : Int)
    (hs : in_int64 start) (he : in_int64 end_) (hn64 : in_int64 n)
    (hse : start ≤ end_) (hspan : end_ - start < 2 ^ 63) (hn : 1 ≤ n) :
    0 ≤ (end_ - start) - n * ((end_ - start) / n) ∧
    (end_ - start) - n * ((end_ - start) / n) < n ∧
    (∀ r : Int, 0 ≤ r → r < (end_ - start) - n * ((end_ - start) / n) →
      (chunk_range start end_ n r).2 - (chunk_range start end_ n r).1
        = (end_ - start) / n + 1) ∧
    (∀ r : Int, (end_ - start) - n * ((end_ - start) / n) ≤ r → r < n →
      (chunk_range start end_ n r).2 - (chunk_range start end_ n r).1
        = (end_ - start) / n) ∧
    (end_ - start < n → ∀ r : Int, (end_ - start) - n * ((end_ - start) / n) ≤ r → r < n →
      (chunk_range start end_ n r).1 = (chunk_range start end_ n r).2) ∧
    (∀ r r' : Int, 0 ≤ r → r < n → 0 ≤ r' → r' < n →
      |((chunk_range start end_ n r).2 - (chunk_range start end_ n r).1)
        - ((chunk_range start end_ n r').2 - (chunk_range start end_ n r').1)| ≤ 1) := by
  obtain ⟨hc, hr0, hrn⟩ := ediv_facts (end_ - start) n (by omega) hn
  have hlen : ∀ r : Int, 0 ≤ r → r < n →
      (chunk_range start end_ n r).2 - (chunk_range start end_ n r).1
      = if r < (end_ - start) - n * ((end_ - start) / n)
        then (end_ - start) / n + 1 else (end_ - start) / n := by
    intro r h0 hr
    rw [chunk_range_of_bounds start end_ n r hs he hn64 hse hspan hn h0 hr]
    exact partition_length start end_ n r
  refine ⟨hr0, hrn, ?_, ?_, ?_, ?_⟩
  · intro r h0 h
    rw [hlen r h0 (by omega), if_pos h]
  · intro r h hr
    rw [hlen r (by omega) hr, if_neg (by omega)]
  · intro hlt r h hr
    have hz : (end_ - start) / n = 0 := Int.ediv_eq_zero_of_lt (by omega) hlt
    have := hlen r (by omega) hr
    rw [if_neg (by omega), hz] at this
    omega
  · intro r r' h0 hr h0' hr'
    rw [hlen r h0 hr, hlen r' h0' hr', abs_le]
    split_ifs <;> constructor <;> omega

/-- Witness of `chunk_range_balanced`: seven rows over three participants. -/
theorem chunk_range_balanced_witness :
    in_int64 0 ∧ in_int64 7 ∧ in_int64 3 ∧ (0 : Int) ≤ 7 ∧ (7 : Int) - 0 < 2 ^ 63 ∧
    (1 : Int) ≤ 3 ∧
    (∀ r : Int, 0 ≤ r → r < (7 - 0) - 3 * ((7 - 0) / 3) →
      (chunk_range 0 7 3 r).2 - (chunk_range 0 7 3 r).1 = (7 - 0) / 3 + 1) :=
  ⟨by decide, by decide, by decide, by decide, by decide, by decide,
    (chunk_range_balanced 0 7 3 (by decide) (by decide) (by decide) (by decide) (by decide)
      (by decide)).2.2.1⟩

/-- C9 as stated fails when the span is not representable: for the 64-bit values
`start = -2^63 <= end = 2^63 - 1` and `n = 2`, `base = 2^63 - 1` and
`remainder = 1`, so rank 0 is below `remainder`, yet its range
`(2^63 - 1, 2^63 - 1)` has length 0 and not `base + 1`. -/
theorem chunk_range_balanced_counterexample :
    in_int64 (-(2 ^ 63)) ∧ in_int64 (2 ^ 63 - 1) ∧ in_int64 2 ∧
    (-(2 ^ 63) : Int) ≤ 2 ^ 63 - 1 ∧ (1 : Int) ≤ 2 ∧
    (0 : Int) < ((2 ^ 63 - 1) - (-(2 ^ 63))) - 2 * (((2 ^ 63 - 1) - (-(2 ^ 63))) / 2) ∧
    (chunk_range (-(2 ^ 63)) (2 ^ 63 - 1) 2 0).2 - (chunk_range (-(2 ^ 63)) (2 ^ 63 - 1) 2 0).1
      = 0 ∧
    (chunk_range (-(2 ^ 63)) (2 ^ 63 - 1) 2 0).2 - (chunk_range (-(2 ^ 63)) (2 ^ 63 - 1) 2 0).1
      ≠ ((2 ^ 63 - 1) - (-(2 ^ 63))) / 2 + 1 := by
  decide

/-! ### Scatter then gather -/

/-- Consecutive slices of a list between increasing cut points concatenate to
the prefix up to the last cut point. -/
theorem flatten_slices {α : Type} (A : List α) (b : Nat → Nat) (hb0 : b 0 = 0)
    (hmono : ∀ r, b r ≤ b (r + 1)) (k : Nat) :
    ((List.range k).map (fun r => (A.drop (b r)).take (b (r + 1) - b r))).flatten
      = A.take (b k) := by
  induction k with
  | zero => simp [hb0]
  | succ k ih =>
    rw [List.range_succ, List.map_append, List.flatten_append, ih]
    simp only [List.map_cons, List.map_nil, List.flatten_cons, List.flatten_nil,
      List.append_nil]
    rw [← List.take_add, Nat.add_sub_cancel' (hmono k)]

/-- C2: scattering the rows of `A` over `n >= 1` participants and gathering the
pieces by ascending rank gives back `A`; and whenever the extent and `n` fit
64 bits, the piece of rank `r` is the slice `[first, second)` of
`chunk_range(0, L, n, r)`. -/
theorem scatter_gather_roundtrip {α : Type} (A : List α) (n : Nat) (hn : 1 ≤ n) :
    gather ((List.range n).map (fun r => scatter A n r)) = A ∧
    ((A.length : Int) < 2 ^ 63 → (n : Int) < 2 ^ 63 → ∀ r : Nat, r < n →
      scatter A n r = rows_range A (chunk_range 0 A.length n r).1
        (chunk_range 0 A.length n r).2) := by
  have hL : (0 : Int) ≤ (A.length : Int) := Int.ofNat_nonneg _
  have hn1 : (1 : Int) ≤ (n : Int) := by exact_mod_cast hn
  constructor
  · have key := flatten_slices A (fun r => (partition_spec 0 A.length n r).1.toNat)
      (by simp [partition_first 0 A.length n hL hn1])
      (by
        intro r
        have h1 := partition_ordered 0 A.length n r hL hn1
        have h2 := partition_adjacent 0 A.length n r
        push_cast
        rw [← h2]
        exact Int.toNat_le_toNat h1) n
    have hlast : (partition_spec 0 (A.length : Int) n (n : Int)).1 = A.length := by
      have h1 := partition_adjacent 0 A.length n ((n : Int) - 1)
      rw [partition_last 0 A.length n hL hn1] at h1
      simpa using h1.symm
    simp only [hlast, Int.toNat_ofNat, List.take_length] at key
    refine Eq.trans ?_ key
    unfold gather scatter rows_range
    congr 1
    apply List.map_congr_left
    intro r _
    have h0 := partition_first_nonneg A.length n r hL hn1 (Int.ofNat_nonneg r)
    have h1 := partition_ordered 0 A.length n r hL hn1
    have h2 := partition_adjacent 0 A.length n r
    simp only
    congr 1
    push_cast
    rw [← h2]
    omega
  · intro hL64 hn64 r hr
    unfold scatter
    simp only
    rw [chunk_range_of_bounds 0 A.length n r (by decide) ⟨by omega, hL64⟩ ⟨by omega, hn64⟩
      hL (by omega) hn1 (Int.ofNat_nonneg r) (by exact_mod_cast hr)]

/-- Witness of `scatter_gather_roundtrip`: seven rows over three participants. -/
theorem scatter_gather_roundtrip_witness :
    1 ≤ 3 ∧ gather ((List.range 3).map (fun r => scatter [0, 1, 2, 3, 4, 5, 6] 3 r))
      = [0, 1, 2, 3, 4, 5, 6] :=
  ⟨by decide, (scatter_gather_roundtrip [0, 1, 2, 3, 4, 5, 6] 3 (by decide)).1⟩

/-! ### Views: shallow copy and rebind -/

theorem handle_copy_fst {T : Type} (h : handle) (m : Memory T) : (h.copy m).1 = h := by
  unfold handle.copy; split <;> rfl

theorem handle_copy_cells {T : Type} (h : handle) (m : Memory T) :
    (h.copy m).2.cells = m.cells := by
  unfold handle.copy; split <;> rfl

theorem handle_release_cells {T : Type} (h : handle) (m : Memory T) :
    (h.release m).cells = m.cells := by
  unfold handle.release; split <;> rfl

theorem handle_assign_fst {T : Type} (dst src : handle) (m : Memory T) :
    (handle.assign dst src m).1 = src := by
  unfold handle.assign; exact handle_copy_fst src m

theorem handle_assign_cells {T : Type} (dst src : handle) (m : Memory T) :
    (handle.assign dst src m).2.cells = m.cells := by
  unfold handle.assign
  simp only
  rw [handle_release_cells, handle_copy_cells]

theorem read_write_same {T : Type} (v w : array_view) (m : Memory T) (i : List Nat) (x : T)
    (hidx : w._idx_m = v._idx_m) (hptr : w._storage.data_pointer = v._storage.data_pointer) :
    w.read (v.write m i x) i = x := by
  unfold array_view.read array_view.write
  simp [hidx, hptr]

/-- C3: the copy constructor yields a view with the same index map and a handle
on the same buffer, and changes no element of any buffer; hence an element
written at a multi-index through the original or through the copy is read back
at that multi-index through the other one. -/
theorem copy_ctor_shallow {T : Type} (v : array_view) (m : Memory T) :
    (v.copy_ctor m).1._idx_m = v._idx_m ∧
    (v.copy_ctor m).1._storage = v._storage ∧
    (v.copy_ctor m).1._storage.data_pointer = v._storage.data_pointer ∧
    (v.copy_ctor m).2.cells = m.cells ∧
    ∀ (i : List Nat) (x : T),
      (v.copy_ctor m).1.read (v.write (v.copy_ctor m).2 i x) i = x ∧
      v.read ((v.copy_ctor m).1.write (v.copy_ctor m).2 i x) i = x := by
  have h1 : (v.copy_ctor m).1._idx_m = v._idx_m := rfl
  have h2 : (v.copy_ctor m).1._storage = v._storage := handle_copy_fst v._storage m
  refine ⟨h1, h2, by rw [h2], handle_copy_cells v._storage m, ?_⟩
  intro i x
  exact ⟨read_write_same v _ _ i x h1 (by rw [h2]),
    read_write_same _ v _ i x h1.symm (by rw [h2])⟩

/-- C4: after `v.rebind(X)` the view `v` has the index map and the storage handle
of `X`; `X` is unchanged, every other view object (a copy of `v` taken before
the call included) keeps its index map and handle, and no element of any
buffer is modified. -/
theorem rebind_frame {T : Type} (s : State T) (v X : Nat) :
    ((rebind s v X).views v)._idx_m = (s.views X)._idx_m ∧
    ((rebind s v X).views v)._storage = (s.views X)._storage ∧
    (rebind s v X).views X = s.views X ∧
    (∀ u : Nat, u ≠ v → (rebind s v X).views u = s.views u) ∧
    (∀ w : Nat, w ≠ v → s.views w = s.views v → (rebind s v X).views w = s.views v) ∧
    (rebind s v X).mem.cells = s.mem.cells := by
  have hidx : ((rebind s v X).views v)._idx_m = (s.views X)._idx_m := by
    simp [rebind]
  have hst : ((rebind s v X).views v)._storage = (s.views X)._storage := by
    simp only [rebind, Function.update_same, handle_assign_fst]
    by_cases h : X = v
    · subst h; simp
    · simp [Function.update_noteq h]
  have hframe : ∀ u : Nat, u ≠ v → (rebind s v X).views u = s.views u := by
    intro u hu
    simp [rebind, Function.update_noteq hu]
  refine ⟨hidx, hst, ?_, hframe, ?_, ?_⟩
  · by_cases h : X = v
    · subst h
      cases hv : (rebind s X X).views X with
      | mk a b =>
        rw [hv] at hidx hst
        simp only at hidx hst
        rw [hidx, hst]
    · exact hframe X h
  · intro w hw heq
    rw [hframe w hw, heq]
  · simp only [rebind]
    rw [handle_assign_cells]

/-! ### Elementwise assignment -/

theorem mem_indices (shape i : List Nat) : i ∈ indices shape ↔ valid_index i shape := by
  unfold valid_index
  induction shape generalizing i with
  | nil => simp [indices]
  | cons n rest ih =>
    simp only [indices, List.mem_flatMap, List.mem_range, List.mem_map,
      List.forall₂_cons_right_iff]
    constructor
    · rintro ⟨a, ha, t, ht, rfl⟩
      exact ⟨a, t, ha, (ih t).mp ht, rfl⟩
    · rintro ⟨a, t, ha, ht, rfl⟩
      exact ⟨a, ha, t, (ih t).mpr ht, rfl⟩

theorem valid_index_mono (i shape sh : List Nat) (hi : valid_index i shape)
    (hle : List.Forall₂ (fun a b => a ≤ b) shape sh) : valid_index i sh := by
  unfold valid_index at hi ⊢
  induction hi generalizing sh with
  | nil => cases hle; exact List.Forall₂.nil
  | cons hab _ ih =>
    cases hle with
    | cons h1 htl => exact List.Forall₂.cons (lt_of_lt_of_le hab h1) (ih _ htl)

theorem in_bounds_of_covers {T : Type} (rhs : RHS T) (shape i : List Nat)
    (hcov : rhs.covers shape) (hi : valid_index i shape) : rhs.in_bounds i := by
  unfold RHS.covers at hcov
  unfold RHS.in_bounds
  cases h : rhs.shape with
  | none => simp
  | some sh =>
    rw [h] at hcov
    exact valid_index_mono i shape sh hi hcov

/-- The loop of `assignment` over a list of valid multi-indices, started in a
memory that agrees with the initial one outside the cells of the view. -/
theorem assignment_loop {T : Type} (v : array_view) (rhs : RHS T) (m0 : Memory T)
    (hb : ∀ i, valid_index i v._idx_m.shape → rhs.in_bounds i)
    (hfoot : ∀ m1 m2 : Memory T,
      (∀ p a, (∀ j, valid_index j v._idx_m.shape →
          ¬ (p = v._storage.data_pointer ∧ a = v._idx_m.offset j)) →
        m1.cells p a = m2.cells p a) →
      ∀ i, valid_index i v._idx_m.shape → rhs.eval m1 i = rhs.eval m2 i)
    (hsame : ∀ i j, valid_index i v._idx_m.shape → valid_index j v._idx_m.shape →
      v._idx_m.offset i = v._idx_m.offset j → rhs.eval m0 i = rhs.eval m0 j)
    (l : List (List Nat)) (hl : ∀ i ∈ l, valid_index i v._idx_m.shape) (m1 : Memory T)
    (hm1 : ∀ p a, (∀ j, valid_index j v._idx_m.shape →
          ¬ (p = v._storage.data_pointer ∧ a = v._idx_m.offset j)) →
        m1.cells p a = m0.cells p a) :
    ∃ m2, l.foldlM (fun m i =>
        if rhs.in_bounds i then some (v.write m i (rhs.eval m i)) else none) m1 = some m2 ∧
      (∀ i ∈ l, v.read m2 i = rhs.eval m0 i) ∧
      (∀ p a, (∀ j ∈ l, ¬ (p = v._storage.data_pointer ∧ a = v._idx_m.offset j)) →
        m2.cells p a = m1.cells p a) ∧
      m2.refcount = m1.refcount := by
  induction l generalizing m1 with
  | nil => exact ⟨m1, rfl, by simp, fun _ _ _ => rfl, rfl⟩
  | cons i l ih =>
    have hi : valid_index i v._idx_m.shape := hl i (List.mem_cons_self _ _)
    have hev : rhs.eval m1 i = rhs.eval m0 i := hfoot m1 m0 hm1 i hi
    have hm1' : ∀ p a, (∀ j, valid_index j v._idx_m.shape →
          ¬ (p = v._storage.data_pointer ∧ a = v._idx_m.offset j)) →
        (v.write m1 i (rhs.eval m0 i)).cells p a = m0.cells p a := by
      intro p a hpa
      unfold array_view.write
      simp only
      rw [if_neg (hpa i hi)]
      exact hm1 p a hpa
    obtain ⟨m2, hfold, hread, hfr, hrc⟩ :=
      ih (fun j hj => hl j (List.mem_cons_of_mem _ hj)) (v.write m1 i (rhs.eval m0 i)) hm1'
    refine ⟨m2, ?_, ?_, ?_, ?_⟩
    · rw [List.foldlM_cons, if_pos (hb i hi), hev]
      exact hfold
    · intro k hk
      rcases List.mem_cons.mp hk with rfl | hk
      · by_cases hex : ∃ j ∈ l, v._idx_m.offset j = v._idx_m.offset k
        · obtain ⟨j, hj, hjk⟩ := hex
          have hvj := hl j (List.mem_cons_of_mem _ hj)
          have : v.read m2 k = v.read m2 j := by
            unfold array_view.read; rw [hjk]
          rw [this, hread j hj]
          exact hsame j k hvj hi hjk
        · have := hfr v._storage.data_pointer (v._idx_m.offset k) (by
            intro j hj hc
            exact hex ⟨j, hj, hc.2.symm⟩)
          unfold array_view.read
          rw [this]
          unfold array_view.write
          simp
      · exact hread k hk
    · intro p a hpa
      rw [hfr p a (fun j hj => hpa j (List.mem_cons_of_mem _ hj))]
      unfold array_view.write
      simp only
      rw [if_neg (hpa i (List.mem_cons_self _ _))]
    · rw [hrc]; rfl

/-- C5 (as the code has it): let `rhs` be at least as large as the view `v` in
every dimension, let evaluating `rhs` not depend on the cells that `v`
addresses (no aliasing), and let two valid multi-indices of `v` that address
the same cell have the same `rhs` element (so for an injective index map, or
a scalar). Then `v = rhs` is defined, returns `v` itself with its index map and
handle, makes every element `v(i)` equal to `rhs(i)`, and changes no cell
outside `v` and no reference count. The overload taking a view does the same. -/
theorem assign_elementwise {T : Type} (v : array_view) (rhs : RHS T) (m : Memory T)
    (hcov : rhs.covers v._idx_m.shape)
    (hfoot : ∀ m1 m2 : Memory T,
      (∀ p a, (∀ j, valid_index j v._idx_m.shape →
          ¬ (p = v._storage.data_pointer ∧ a = v._idx_m.offset j)) →
        m1.cells p a = m2.cells p a) →
      ∀ i, valid_index i v._idx_m.shape → rhs.eval m1 i = rhs.eval m2 i)
    (hsame : ∀ i j, valid_index i v._idx_m.shape → valid_index j v._idx_m.shape →
      v._idx_m.offset i = v._idx_m.offset j → rhs.eval m i = rhs.eval m j) :
    ∃ m1, v.assign rhs m = some (v, m1) ∧
      (∀ w : array_view, rhs = RHS.of_view w → v.assign_view w m = some (v, m1)) ∧
      (∀ i, valid_index i v._idx_m.shape → v.read m1 i = rhs.eval m i) ∧
      (∀ p a, (∀ j, valid_index j v._idx_m.shape →
          ¬ (p = v._storage.data_pointer ∧ a = v._idx_m.offset j)) →
        m1.cells p a = m.cells p a) ∧
      m1.refcount = m.refcount := by
  obtain ⟨m1, hfold, hread, hfr, hrc⟩ :=
    assignment_loop v rhs m (fun i hi => in_bounds_of_covers rhs _ i hcov hi) hfoot hsame
      (indices v._idx_m.shape) (fun i hi => (mem_indices _ i).mp hi) m (fun _ _ _ => rfl)
  have hassign : assignment v rhs m = some m1 := hfold
  refine ⟨m1, ?_, ?_, ?_, ?_, hrc⟩
  · unfold array_view.assign; rw [hassign]; rfl
  · intro w hw
    unfold array_view.assign_view; rw [← hw, hassign]; rfl
  · intro i hi
    exact hread i ((mem_indices _ i).mpr hi)
  · intro p a hpa
    exact hfr p a (fun j hj => hpa j ((mem_indices _ j).mp hj))

/-- Assignment of a scalar: defined for every view, and every element of the
view is the scalar afterwards. -/
theorem assign_scalar {T : Type} (v : array_view) (x : T) (m : Memory T) :
    ∃ m1, v.assign (RHS.scalar x) m = some (v, m1) ∧
      (∀ i, valid_index i v._idx_m.shape → v.read m1 i = x) := by
  obtain ⟨m1, hfold, hread, _, _⟩ :=
    assignment_loop v (RHS.scalar x) m (fun _ _ => trivial) (fun _ _ _ _ _ => rfl)
      (fun _ _ _ _ _ => rfl)
      (indices v._idx_m.shape) (fun i hi => (mem_indices _ i).mp hi) m (fun _ _ _ => rfl)
  have hassign : assignment v (RHS.scalar x) m = some m1 := hfold
  refine ⟨m1, ?_, fun i hi => hread i ((mem_indices _ i).mpr hi)⟩
  unfold array_view.assign; rw [hassign]; rfl

/-- A view whose two multi-indices address the same cell cannot hold two
different elements: after `example_lhs_repeated = example_rhs_disjoint` the
element `v(0)` is `rhs(1)`, not `rhs(0)`. -/
theorem assign_repeated_cell_example :
    (RHS.of_view example_rhs_disjoint : RHS Int).covers example_lhs_repeated._idx_m.shape ∧
    ∃ m1, example_lhs_repeated.assign_view example_rhs_disjoint example_memory
        = some (example_lhs_repeated, m1) ∧
      example_lhs_repeated.read m1 [0] = 21 ∧
      example_rhs_disjoint.read example_memory [0] = 20 ∧
      example_rhs_disjoint.read m1 [0] = 20 :=
  ⟨by decide, _, rfl, by decide, by decide, by decide⟩

/-- Witness of `assign_elementwise`: a view on buffer 0 assigned from a view on
buffer 1. -/
theorem assign_elementwise_witness :
    (RHS.of_view example_rhs_disjoint : RHS Int).covers example_lhs._idx_m.shape ∧
    ∃ m1, example_lhs.assign (RHS.of_view example_rhs_disjoint) example_memory
        = some (example_lhs, m1) ∧
      (∀ i, valid_index i example_lhs._idx_m.shape →
        example_lhs.read m1 i = example_rhs_disjoint.read example_memory i) := by
  obtain ⟨m1, h1, _, h3, _⟩ :=
    assign_elementwise example_lhs (RHS.of_view example_rhs_disjoint) example_memory
      (by decide)
      (fun m1 m2 h i _ =>
        h 1 (example_rhs_disjoint._idx_m.offset i) (fun _ _ hc => absurd hc.1 (by decide)))
      (by
        intro i j hi hj h
        have hi1 := (mem_indices _ _).mpr hi
        have hj1 := (mem_indices _ _).mpr hj
        simp only [example_lhs, indices, List.range, List.range.loop, List.flatMap_cons,
          List.flatMap_nil, List.map_cons, List.map_nil, List.append_nil, List.cons_append,
          List.nil_append, List.mem_cons, List.mem_singleton, List.not_mem_nil, or_false]
          at hi1 hj1
        rcases hi1 with rfl | rfl | rfl <;> rcases hj1 with rfl | rfl | rfl <;>
          first
          | rfl
          | (exfalso; revert h; decide))
  exact ⟨by decide, m1, h1, h3⟩

/-- C5 as stated fails for overlapping views: `example_lhs = example_rhs_overlapping`
is defined and the right-hand side is large enough, yet afterwards `v(1)` is
not the element `rhs(1)` had before the assignment, and `v(0)` is not the
element `rhs(0)` has after it. -/
theorem assign_overlapping_counterexample :
    (RHS.of_view example_rhs_overlapping : RHS Int).covers example_lhs._idx_m.shape ∧
    ∃ m1, example_lhs.assign_view example_rhs_overlapping example_memory
        = some (example_lhs, m1) ∧
      ¬ (∀ i, valid_index i example_lhs._idx_m.shape →
          example_lhs.read m1 i = example_rhs_overlapping.read example_memory i) ∧
      ¬ (∀ i, valid_index i example_lhs._idx_m.shape →
          example_lhs.read m1 i = example_rhs_overlapping.read m1 i) := by
  refine ⟨?_, _, rfl, ?_, ?_⟩
  · decide
  · intro h
    exact absurd (h [1] (by decide)) (by decide)
  · intro h
    exact absurd (h [0] (by decide)) (by decide)

/-! ### Constness: construction and `rebind` -/

/-- C6 (the code at the failing input): with the `REQUIRES` conditions as
written, a non-const view does rebind from a const view of the same element
type and rank (overload l.133 is enabled exactly for non-const views); a const
view rebinds from a non-const view; a const view does not rebind from a
const view. -/
theorem rebind_overloads_as_written (t R : Nat) :
    rebind_accepted ⟨⟨t, false⟩, R⟩ ⟨⟨t, true⟩, R⟩ = true ∧
    rebind_overload.from_const_view.viable ⟨⟨t, false⟩, R⟩ ⟨⟨t, true⟩, R⟩ = true ∧
    rebind_accepted ⟨⟨t, true⟩, R⟩ ⟨⟨t, false⟩, R⟩ = true ∧
    rebind_accepted ⟨⟨t, true⟩, R⟩ ⟨⟨t, true⟩, R⟩ = false ∧
    rebind_accepted ⟨⟨t, false⟩, R⟩ ⟨⟨t, false⟩, R⟩ = true ∧
    (∀ (s : State Int) (v X : Nat),
      rebind_call ⟨⟨t, false⟩, R⟩ ⟨⟨t, true⟩, R⟩ s v X = some (rebind s v X)) := by
  simp [rebind_call, rebind_accepted, rebind_overload.viable, rebind_overload.enabled,
    rebind_overload.param, implicitly_convertible, ctor.all, ctor.accepts, ctor.is_explicit,
    view_class.is_const, view_class.view_t, view_class.const_view_t, view_class.value_t,
    remove_const, add_const]

/-- C7 as stated fails: the explicit generic constructor of the non-const class
`array_view<T, 1>` accepts a view of the const class `array_view<T const, 1>`. -/
theorem nonconst_from_const_counterexample :
    ¬ (∀ c ∈ ctor.all, c.accepts ⟨⟨0, false⟩, 1⟩ ⟨⟨0, true⟩, 1⟩ = false) ∧
    constructible ⟨⟨0, false⟩, 1⟩ ⟨⟨0, true⟩, 1⟩ = true := by
  decide

/-- C7 (as the code has it): a const view is constructed from a non-const view
of the same element type and rank by the non-explicit constructor of l.75, and
has the index map and the storage handle of its source. In the reverse
direction the move, copy, const-from-non-const and index-map-plus-storage
constructors reject a const view, so there is no implicit conversion; the
explicit generic constructor accepts it, `storage_t` being the same handle
type for both classes, and builds a non-const view with the index map and the
storage handle of the const source. No element of any buffer changes. -/
theorem const_construction {T : Type} (t R : Nat) (a : array_view) (m : Memory T) :
    (implicitly_convertible ⟨⟨t, false⟩, R⟩ ⟨⟨t, true⟩, R⟩ = true ∧
      ∃ w m1, construct ctor.const_from_view ⟨⟨t, true⟩, R⟩ ⟨⟨t, false⟩, R⟩ a m = some (w, m1) ∧
        w._idx_m = a._idx_m ∧ w._storage = a._storage ∧ m1.cells = m.cells) ∧
    (implicitly_convertible ⟨⟨t, true⟩, R⟩ ⟨⟨t, false⟩, R⟩ = false ∧
      (∀ c ∈ ctor.all, c ≠ ctor.generic → c.accepts ⟨⟨t, false⟩, R⟩ ⟨⟨t, true⟩, R⟩ = false) ∧
      (⟨⟨t, false⟩, R⟩ : view_class).storage_t = (⟨⟨t, true⟩, R⟩ : view_class).storage_t ∧
      ∃ w m1, construct ctor.generic ⟨⟨t, false⟩, R⟩ ⟨⟨t, true⟩, R⟩ a m = some (w, m1) ∧
        w._idx_m = a._idx_m ∧ w._storage = a._storage ∧ m1.cells = m.cells) := by
  have hv : (a.from_view m).1._idx_m = a._idx_m := rfl
  have hs : (a.from_view m).1._storage = a._storage := handle_copy_fst a._storage m
  have hc : (a.from_view m).2.cells = m.cells := handle_copy_cells a._storage m
  refine ⟨⟨?_, (a.from_view m).1, (a.from_view m).2, ?_, hv, hs, hc⟩,
    ?_, ?_, ?_, (a.from_view m).1, (a.from_view m).2, ?_, hv, hs, hc⟩
  · simp [implicitly_convertible, ctor.all, ctor.accepts, ctor.is_explicit,
      view_class.is_const, view_class.view_t, view_class.value_t, remove_const]
  · simp [construct, ctor.accepts, view_class.is_const, view_class.view_t,
      view_class.value_t, remove_const]
  · simp [implicitly_convertible, ctor.all, ctor.accepts, ctor.is_explicit,
      view_class.is_const, view_class.view_t, view_class.value_t, remove_const]
  · intro c _ hc
    cases c <;> simp [ctor.accepts, view_class.is_const] at hc ⊢
  · rfl
  · simp [construct, ctor.accepts, view_class.idx_map_t, view_class.storage_t,
      view_class.value_t, remove_const]

/-! ### All-reduce of the composite test array -/

end nda
